import Mathlib

/-!
Verification of the multi-strategy contribution-acquisition engine of the
github-contributions-tracker repository, as a shallow embedding.

Strings are modelled as lists of characters (`Chars`), timestamps as integer
instants paired with a zone-awareness flag (`DT`), and the remote platform
(GitHub REST search / repository / commit listing APIs and the GraphQL
endpoint) as an explicit environment record (`Env`) of pure functions whose
results model what the remote would return; fallible remote calls return
`Except`.  Every definition follows the corresponding function of
`src/github_contributions_tracker/tracker.py`.
-/

set_option autoImplicit false

namespace Tracker

/-- Strings are modelled as lists of characters. -/
abbrev Chars := List Char

/-- Convert a Lean string literal to its character-list model. -/
def toChars (s : String) : Chars := s.toList

/-- Python `s.split(sep)[0]`: the prefix of a string before the first newline
(the code keeps only the first line of a commit message). -/
def firstLine (s : Chars) : Chars := s.takeWhile (fun c => c ≠ '\n')

/-- Python `s.split(sep)` for a one-character separator: the list of
separator-free segments, including empty ones. -/
def splitChar (sep : Char) : Chars → List Chars
  | [] => [[]]
  | c :: t =>
    match splitChar sep t with
    | [] => [[c]]
    | h :: r => if c = sep then [] :: h :: r else (c :: h) :: r

/-- Python `s.split(sep, 1)` when the separator occurs (used as
`owner, repo = repo_name.split('/', 1)`); `none` models the `ValueError`
raised when it does not occur (caught by the caller's per-item handler). -/
def splitSlashOnce : Chars → Option (Chars × Chars)
  | [] => none
  | c :: t =>
    if c = '/' then some ([], t)
    else match splitSlashOnce t with
      | none => none
      | some (a, b) => some (c :: a, b)

/-- Extract `(owner, repo)` from a commit HTML URL the way the code does:
`url.split('/')`, keep parts 3 and 4 when at least 5 parts exist. -/
def repoPairOfUrl (u : Chars) : Option (Chars × Chars) :=
  match (splitChar '/' u).drop 3 with
  | o :: r :: _ => some (o, r)
  | _ => none

/-- Join an `(owner, repo)` pair into the `owner/repo` full-name string. -/
def joinSlash (p : Chars × Chars) : Chars := p.1 ++ '/' :: p.2

/-- Whether `p` is a prefix of `s` (Boolean, by character equality). -/
def prefOf : Chars → Chars → Bool
  | [], _ => true
  | _ :: _, [] => false
  | a :: as, b :: bs => a = b && prefOf as bs

/-- Python `p in s`: `p` occurs as a contiguous substring of `s`. -/
def occursIn (p : Chars) : Chars → Bool
  | [] => prefOf p []
  | s@(_ :: t) => prefOf p s || occursIn p t

/-- Python `s.find(p)` (as an `Option`): index of the first occurrence. -/
def firstIdx (p : Chars) : Chars → Option Nat
  | [] => if prefOf p [] then some 0 else none
  | s@(_ :: t) =>
    if prefOf p s then some 0
    else (firstIdx p t).map (· + 1)

/-- Python `s.find(p, k)` (as an `Option`): first occurrence at index ≥ k. -/
def idxFrom (p s : Chars) (k : Nat) : Option Nat :=
  (firstIdx p (s.drop k)).map (· + k)

/-- Fuelled worker for `replaceAll`; fuel bounds the length of the remaining
string, so `s.length` fuel is always enough for a nonempty pattern. -/
def replaceAllGo (p r : Chars) : Nat → Chars → Chars
  | _, [] => []
  | 0, s => s
  | fuel + 1, s@(c :: t) =>
    if prefOf p s then r ++ replaceAllGo p r fuel (s.drop p.length)
    else c :: replaceAllGo p r fuel t

/-- Python `s.replace(p, r)` for a nonempty pattern: replace every
left-to-right non-overlapping occurrence. -/
def replaceAll (p r s : Chars) : Chars := replaceAllGo p r s.length s

/-- First-occurrence-order deduplication (models iteration over a Python
set built by successive insertions). -/
def dedupFO (l : List Chars) : List Chars :=
  l.foldl (fun acc a => if a ∈ acc then acc else acc ++ [a]) []

/-- Python `dict` accumulation `d.setdefault(k, []).append(a)` pattern used to
group commits by repository: extend the entry of `k`, else append a new entry
(dict preserves insertion order of keys). -/
def addToGroup {κ α : Type} [DecidableEq κ] : List (κ × List α) → κ → α → List (κ × List α)
  | [], k, a => [(k, [a])]
  | (k', l) :: t, k, a =>
    if k' = k then (k', l ++ [a]) :: t else (k', l) :: addToGroup t k a

/-- Lookup of a key's accumulated list in a grouping (`d[k]`). -/
def findGroup {κ α : Type} [DecidableEq κ] : List (κ × List α) → κ → List α
  | [], _ => []
  | (k', l) :: t, k => if k' = k then l else findGroup t k

/-! ### Data model -/

/-- A timestamp: an instant (seconds, wall clock) plus whether the value is
zone-aware (`tzinfo` present).  `hasTZ = false` models a naive `datetime`. -/
structure DT where
  t : Int
  hasTZ : Bool
deriving DecidableEq, Repr

/-- `d.replace(tzinfo=timezone.utc) if d.tzinfo is None else d`. -/
def tzNormalize (d : DT) : DT := if d.hasTZ then d else { t := d.t, hasTZ := true }

/-- A commit as returned by the REST search / commit-listing APIs:
full sha, full (possibly multi-line) message, author date, HTML URL. -/
structure GHCommit where
  sha : Chars
  message : Chars
  date : DT
  htmlUrl : Chars
deriving DecidableEq, Repr

/-- A repository object as returned by `get_repo` / `get_repos`. -/
structure Repo where
  name : Chars
  fullName : Chars
  htmlUrl : Chars
  priv : Bool
deriving DecidableEq, Repr

/-- A commit node of the GraphQL history response. -/
structure GqlCommit where
  oid : Chars
  messageHeadline : Chars
  date : DT
  url : Chars
  authorLogin : Option Chars
deriving DecidableEq, Repr

/-- Outcome of one GraphQL history request for a repository.  `failed`
collapses every path the code skips the repository on: request exception,
non-200 status, unparsable body, unexpected response type, explicit error
field, and missing repository / default branch / history data. -/
inductive GqlResp where
  | failed
  | ok (nodes : List GqlCommit)

/-- The canonical `CommitRecord` built by every strategy. -/
structure CommitRecord where
  repo : Chars
  sha : Chars
  message : Chars
  date : DT
  url : Chars
deriving DecidableEq, Repr

/-- The canonical `RepositoryRecord`. -/
structure RepoRecord where
  name : Chars
  url : Chars
  priv : Bool
deriving DecidableEq, Repr

/-- The `contributions` dictionary: commits, reserved always-empty slots for
pull requests / issues / reviews, and repositories. -/
structure Contributions where
  commits : List CommitRecord
  pull_requests : List Unit
  issues : List Unit
  reviews : List Unit
  repositories : List RepoRecord
deriving DecidableEq, Repr

/-- The freshly initialised `contributions` dictionary. -/
def emptyContributions : Contributions := ⟨[], [], [], [], []⟩

/-! ### Date chunking (the `while current_date < end_date` loop of the
conservative strategy, with `chunk_size = timedelta(days=7)`) -/

/-- Seconds in one day. -/
def daySeconds : Int := 86400

/-- The fixed chunk width: 7 days, in seconds. -/
def chunkSeconds : Int := 7 * daySeconds

/-- Fuelled worker for `dateChunks`; one unit of fuel per produced chunk. -/
def chunksGo (e : Int) : Nat → Int → List (Int × Int)
  | 0, _ => []
  | fuel + 1, s =>
    if s < e then (s, min (s + chunkSeconds) e) :: chunksGo e fuel (min (s + chunkSeconds) e)
    else []

/-- The sequence of `(current_date, chunk_end)` sub-ranges produced by the
conservative strategy's chunking loop.  The fuel `(e - s).toNat + 1` bounds
the number of chunks (each chunk advances `current_date` by at least one). -/
def dateChunks (s e : Int) : List (Int × Int) :=
  chunksGo e ((e - s).toNat + 1) s

/-! ### The remote environment and `_get_repos_with_contributions` -/

/-- The remote platform, as seen through the API client: the tracked user's
login, the commit search endpoint, repository resolution, per-repository
commit listing (already author-filtered and range-filtered by the remote, as
the code requests), the account's own repository list, and the GraphQL
history endpoint.  Fallible calls return `Except`; an `error` models a raised
exception. -/
structure Env where
  login : Chars
  searchCommits : Int → Int → Except String (List GHCommit)
  getRepo : Chars → Except String Repo
  getCommits : Chars → Int → Int → Except String (List GHCommit)
  userRepos : List Repo
  gql : Chars → Int → Int → GqlResp

/-- `_get_repos_with_contributions`: search commits by author and date range,
derive `owner/repo` names from each result URL (deduplicated, a set), filter
to public repositories when `includePrivate` is false (resolution failure
drops the repository); if the search itself raises, fall back to enumerating
the account's repositories filtered by visibility. -/
def get_repos_with_contributions (env : Env) (s e : Int) (ip : Bool) : List Chars :=
  match env.searchCommits s e with
  | .error _ => (env.userRepos.filter (fun r => ip || !r.priv)).map (fun r => r.fullName)
  | .ok cs =>
    let names := dedupFO (cs.filterMap (fun c => (repoPairOfUrl c.htmlUrl).map joinSlash))
    if ip then names
    else names.filter (fun n =>
      match env.getRepo n with
      | .ok r => !r.priv
      | .error _ => false)

/-! ### Conservative strategy (`_fetch_contributions_conservative`) -/

/-- The `commit_data` record the conservative strategy builds (no timezone
coercion: the remote date is stored unchanged). -/
def consRecord (repo : Repo) (c : GHCommit) : CommitRecord :=
  { repo := repo.name, sha := c.sha.take 7, message := firstLine c.message,
    date := c.date, url := c.htmlUrl }

/-- Per-repository body of the conservative chunk loop: resolve the
repository, list its commits for the chunk (any failure skips the
repository), append every returned commit, then append the repository record
unless one with the same name is already present. -/
def consRepoStep (env : Env) (a b : Int) (acc : Contributions) (n : Chars) : Contributions :=
  match env.getRepo n with
  | .error _ => acc
  | .ok repo =>
    match env.getCommits n a b with
    | .error _ => acc
    | .ok cs =>
      let acc1 := { acc with commits := acc.commits ++ cs.map (consRecord repo) }
      if acc1.repositories.any (fun r => r.name = repo.name) then acc1
      else { acc1 with
             repositories := acc1.repositories ++
               [{ name := repo.name, url := repo.htmlUrl, priv := repo.priv }] }

/-- One chunk of the conservative strategy: re-discover repositories for this
sub-range, keep the first 10, and process each. -/
def consChunkStep (env : Env) (ip : Bool) (acc : Contributions) (ch : Int × Int) : Contributions :=
  ((get_repos_with_contributions env ch.1 ch.2 ip).take 10).foldl (consRepoStep env ch.1 ch.2) acc

/-- `_fetch_contributions_conservative`: fold the chunk body over the weekly
sub-ranges of the requested window. -/
def fetch_contributions_conservative (env : Env) (s e : Int) (ip : Bool) : Contributions :=
  (dateChunks s e).foldl (consChunkStep env ip) emptyContributions

/-! ### Bulk search strategy (`_fetch_contributions_bulk_search`) -/

/-- The `commit_data` record of the bulk strategy (repository field is the
name part of the `owner/repo` pair, date stored unchanged). -/
def bulkRecord (p : Chars × Chars) (c : GHCommit) : CommitRecord :=
  { repo := p.2, sha := c.sha.take 7, message := firstLine c.message,
    date := c.date, url := c.htmlUrl }

/-- Group the search results by repository (derived from each commit's URL;
results with too few URL parts are skipped), preserving first-occurrence
order of repositories and commit order within each repository. -/
def bulkGroups (cs : List GHCommit) : List ((Chars × Chars) × List GHCommit) :=
  cs.foldl (fun g c =>
    match repoPairOfUrl c.htmlUrl with
    | none => g
    | some kp => addToGroup g kp c) []

/-- `_fetch_contributions_bulk_search`: one commit search; on any raised
exception (the code returns the conservative result both from its rate-limit
branch and from its outer catch-all handler) fall back to the conservative
strategy over the full original range.  On success: group by repository, keep
the first 50 commits per repository, and list the repositories (filtered for
visibility when `includePrivate` is false), each with `private = False`. -/
def fetch_contributions_bulk_search (env : Env) (s e : Int) (ip : Bool) : Contributions :=
  match env.searchCommits s e with
  | .error _ => fetch_contributions_conservative env s e ip
  | .ok cs =>
    let groups := bulkGroups cs
    let commits := groups.flatMap (fun kl => (kl.2.take 50).map (bulkRecord kl.1))
    let allRepos := groups.map (fun kl => kl.1)
    let kept := if ip then allRepos
      else allRepos.filter (fun kp =>
        match env.getRepo (joinSlash kp) with
        | .ok r => !r.priv
        | .error _ => false)
    { emptyContributions with
      commits := commits,
      repositories := kept.map (fun kp =>
        { name := kp.2, url := toChars "https://github.com/" ++ joinSlash kp, priv := false }) }

/-! ### GraphQL batch strategy (`_fetch_contributions_graphql`) -/

/-- The `commit_data` record of the GraphQL strategy. -/
def gqlRecord (shortName : Chars) (c : GqlCommit) : CommitRecord :=
  { repo := shortName, sha := c.oid.take 7, message := c.messageHeadline,
    date := c.date, url := c.url }

/-- Per-repository body of the GraphQL loop: split the full name (a missing
slash raises and skips the item), issue the history query (any failure skips
the repository), keep commits whose author login matches the tracked user,
then append the repository record with `private = False`. -/
def gqlStep (env : Env) (s e : Int) (acc : Contributions) (name : Chars) : Contributions :=
  match splitSlashOnce name with
  | none => acc
  | some (_, r) =>
    match env.gql name s e with
    | .failed => acc
    | .ok nodes =>
      let mine := nodes.filter (fun c => c.authorLogin = some env.login)
      { acc with
        commits := acc.commits ++ mine.map (gqlRecord r),
        repositories := acc.repositories ++
          [{ name := r, url := toChars "https://github.com/" ++ name, priv := false }] }

/-- The accumulation of the GraphQL strategy before its zero-commit check. -/
def gqlPartial (env : Env) (names : List Chars) (s e : Int) : Contributions :=
  names.foldl (gqlStep env s e) emptyContributions

/-- `_fetch_contributions_graphql`: if no commit at all was collected, fall
back to the conservative strategy over the full range, with `includePrivate`
re-derived as `any(repo['private'] for repo in repositories)`. -/
def fetch_contributions_graphql (env : Env) (names : List Chars) (s e : Int) : Contributions :=
  let p := gqlPartial env names s e
  if p.commits = [] then
    fetch_contributions_conservative env s e (p.repositories.any (fun r => r.priv))
  else p

/-! ### Exhaustive enumeration (the default loop of `get_contributions`) -/

/-- The `commit_data` record of the enumeration path: the only one that
coerces a naive timestamp to UTC. -/
def enumRecord (repo : Repo) (c : GHCommit) : CommitRecord :=
  { repo := repo.name, sha := c.sha.take 7, message := firstLine c.message,
    date := tzNormalize c.date, url := c.htmlUrl }

/-- Per-repository body of the enumeration loop: resolve the repository, list
commits (any failure skips the repository entirely), keep at most 50 commits,
and append the repository record with its real visibility. -/
def enumStep (env : Env) (s e : Int) (acc : Contributions) (n : Chars) : Contributions :=
  match env.getRepo n with
  | .error _ => acc
  | .ok repo =>
    match env.getCommits n s e with
    | .error _ => acc
    | .ok cs =>
      { acc with
        commits := acc.commits ++ (cs.take 50).map (enumRecord repo),
        repositories := acc.repositories ++
          [{ name := repo.name, url := repo.htmlUrl, priv := repo.priv }] }

/-- The exhaustive-enumeration strategy over a given repository list. -/
def fetch_contributions_enumeration (env : Env) (names : List Chars) (s e : Int) : Contributions :=
  names.foldl (enumStep env s e) emptyContributions

/-- `get_contributions`: compute the candidate repository list (discovery when
`optimize`, else full account enumeration filtered by visibility), apply the
optional positive limit, then dispatch: conservative first, then bulk, then
GraphQL, else the exhaustive enumeration loop. -/
def get_contributions (env : Env) (s e : Int) (ip optimize : Bool) (limit : Option Nat)
    (useGraphql useBulk useConservative : Bool) : Contributions :=
  let repos := if optimize then get_repos_with_contributions env s e ip
    else (env.userRepos.filter (fun r => ip || !r.priv)).map (fun r => r.fullName)
  let repos := match limit with
    | some l => if 0 < l then repos.take l else repos
    | none => repos
  if useConservative then fetch_contributions_conservative env s e ip
  else if useBulk then fetch_contributions_bulk_search env s e ip
  else if useGraphql then fetch_contributions_graphql env repos s e
  else fetch_contributions_enumeration env repos s e

/-! ### Report rendering (`generate_summary`) -/

/-- Python `'\n'.join(lines)`. -/
def joinNl : List Chars → Chars
  | [] => []
  | [x] => x
  | x :: y :: t => x ++ '\n' :: joinNl (y :: t)

/-- Decimal rendering of a count. -/
def natChars (n : Nat) : Chars := toChars (toString n)

/-- The `format_type` selector of `generate_summary`. -/
inductive Format where
  | markdown
  | plain

/-- The markdown visibility marker: `"🔒 Private" if repo['private'] else "🌐 Public"`. -/
def visibilityMd (rp : RepoRecord) : Chars :=
  if rp.priv then toChars "🔒 Private" else toChars "🌐 Public"

/-- A repository bullet of the markdown summary. -/
def repoLineMd (rp : RepoRecord) : Chars :=
  toChars "- **" ++ rp.name ++ toChars "** (" ++ visibilityMd rp ++ toChars ")"

/-- A commit bullet of the markdown summary. -/
def commitLineMd (c : CommitRecord) : Chars :=
  toChars "- **" ++ c.repo ++ toChars "**: " ++ c.message ++ toChars " (" ++ c.sha ++ toChars ")"

/-- The plain-text visibility marker: `"Private" if repo['private'] else "Public"`. -/
def visibilityPlain (rp : RepoRecord) : Chars :=
  if rp.priv then toChars "Private" else toChars "Public"

/-- A repository bullet of the plain-text summary. -/
def repoLinePlain (rp : RepoRecord) : Chars :=
  toChars "- " ++ rp.name ++ toChars " (" ++ visibilityPlain rp ++ toChars ")"

/-- A commit bullet of the plain-text summary. -/
def commitLinePlain (c : CommitRecord) : Chars :=
  toChars "- " ++ c.repo ++ toChars ": " ++ c.message ++ toChars " (" ++ c.sha ++ toChars ")"

/-- `generate_summary`: the deterministic report renderer. -/
def generate_summary (c : Contributions) (fmt : Format) : Chars :=
  match fmt with
  | .markdown =>
    joinNl ([toChars "# GitHub Contributions Summary\n", toChars "## Overview",
      toChars "- **Total Commits**: " ++ natChars c.commits.length,
      toChars "- **Repositories with Contributions**: " ++ natChars c.repositories.length ++ toChars "\n"] ++
      (if c.commits = [] then []
       else toChars "## Commits" :: c.commits.map commitLineMd ++ [[]]) ++
      (if c.repositories = [] then []
       else toChars "## Repositories with Contributions" :: c.repositories.map repoLineMd ++ [[]]))
  | .plain =>
    joinNl ([toChars "GITHUB CONTRIBUTIONS SUMMARY", List.replicate 40 '=', [],
      toChars "OVERVIEW", List.replicate 10 '-',
      toChars "Total Commits: " ++ natChars c.commits.length,
      toChars "Repositories with Contributions: " ++ natChars c.repositories.length, []] ++
      (if c.commits = [] then []
       else toChars "COMMITS" :: List.replicate 10 '-' :: c.commits.map commitLinePlain ++ [[]]) ++
      (if c.repositories = [] then []
       else toChars "REPOSITORIES WITH CONTRIBUTIONS" :: List.replicate 32 '-' ::
         c.repositories.map repoLinePlain ++ [[]]))

/-! ### Low-level tasks section and its injection (`_generate_low_level_tasks`,
`generate_bedrock_summary`) -/

/-- `repo_commits`: the commits grouped by repository name, key order being
first-occurrence order, commit order within a key preserved. -/
def groupCommits (cs : List CommitRecord) : List (Chars × List CommitRecord) :=
  cs.foldl (fun g c => addToGroup g c.repo c) []

/-- `sorted(repo_commits.keys())`: the repository names in lexicographic
(code-point) order. -/
def sortedRepoKeys (cs : List CommitRecord) : List Chars :=
  List.insertionSort (fun a b => a ≤ b) ((groupCommits cs).map (fun kl => kl.1))

/-- The per-repository header line of the low-level tasks section. -/
def repoHeaderLine (k : Chars) : Chars := toChars "  Repository: " ++ k

/-- The per-commit line of the low-level tasks section. -/
def commitTaskLine (c : CommitRecord) : Chars :=
  toChars "    Commit: " ++ c.sha ++ toChars " - " ++ c.message

/-- The body lines of the low-level tasks section: for each repository in
sorted order, its header, its commit lines, then an empty separator line. -/
def lowLevelLines (cs : List CommitRecord) : List Chars :=
  (sortedRepoKeys cs).flatMap (fun k =>
    repoHeaderLine k :: (findGroup (groupCommits cs) k).map commitTaskLine ++ [[]])

/-- `_generate_low_level_tasks`. -/
def generate_low_level_tasks (c : Contributions) : Chars :=
  if c.commits = [] then
    toChars "## Low-Level Tasks\n\nNo commits found in the specified time period."
  else joinNl (toChars "## Low-Level Tasks\n" :: lowLevelLines c.commits)

/-- The high-level tasks heading literal. -/
def hlHeading : Chars := toChars "## High-Level Tasks Completed"

/-- The overview heading literal. -/
def ovHeading : Chars := toChars "## Overview"

/-- The section-start literal searched for after the overview heading. -/
def sectionMark : Chars := toChars "##"

/-- The `"\n\n"` separator used around the injected section. -/
def nn2 : Chars := toChars "\n\n"

/-- The injection logic of `generate_bedrock_summary` (lines after the AI
call): insert the low-level tasks section before every occurrence of the
high-level heading; otherwise before the first section mark following the
overview heading; otherwise append at the end. -/
def injectLowLevel (s : Chars) (c : Contributions) : Chars :=
  let low := generate_low_level_tasks c
  if occursIn hlHeading s then replaceAll hlHeading (low ++ nn2 ++ hlHeading) s
  else if occursIn ovHeading s then
    match firstIdx ovHeading s with
    | none => s
    | some i =>
      match idxFrom sectionMark s (i + 1) with
      | none => s ++ nn2 ++ low
      | some j => s.take j ++ nn2 ++ low ++ nn2 ++ s.drop j
  else s ++ nn2 ++ low

/-- `generate_bedrock_summary`: render the markdown report, hand it to the
external AI collaborator, and inject the low-level tasks section into the
returned string. -/
def generate_bedrock_summary (ai : Chars → Chars) (c : Contributions) : Chars :=
  injectLowLevel (ai (generate_summary c Format.markdown)) c

/-! ### Environment well-formedness used by the amended C1 -/

/-- Every commit hash the remote hands back has at least 7 characters (true
of the real platform's 40-hex-character hashes). -/
def EnvShaOK (env : Env) : Prop :=
  (∀ a b cs, env.searchCommits a b = .ok cs → ∀ c ∈ cs, 7 ≤ c.sha.length) ∧
  (∀ n a b cs, env.getCommits n a b = .ok cs → ∀ c ∈ cs, 7 ≤ c.sha.length) ∧
  (∀ n a b ns, env.gql n a b = .ok ns → ∀ c ∈ ns, 7 ≤ c.oid.length)

/-! ### Concrete environments used by witnesses and counterexamples -/

/-- A naive (zone-unaware) remote timestamp. -/
def dtNaive : DT := { t := 5, hasTZ := false }

/-- Three commits of one repository: two distinct commits sharing their
first 7 hash characters, plus one commit with a 3-character hash, all with
naive timestamps. -/
def dupFeed : List GHCommit :=
  [{ sha := toChars "aaaaaaaXYZ", message := toChars "m1", date := dtNaive,
     htmlUrl := toChars "https://github.com/o/r/commit/x" },
   { sha := toChars "aaaaaaaQQQ", message := toChars "m2", date := dtNaive,
     htmlUrl := toChars "https://github.com/o/r/commit/y" },
   { sha := toChars "abc", message := toChars "m3", date := dtNaive,
     htmlUrl := toChars "https://github.com/o/r/commit/z" }]

/-- A remote feed whose commit search returns `dupFeed`. -/
def envDupSha : Env where
  login := toChars "u"
  searchCommits := fun _ _ => .ok dupFeed
  getRepo := fun _ => .error "inaccessible"
  getCommits := fun _ _ _ => .ok []
  userRepos := []
  gql := fun _ _ _ => .failed

/-- The public repository `o/r`. -/
def bigRepo : Repo :=
  { name := toChars "r", fullName := toChars "o/r",
    htmlUrl := toChars "https://github.com/o/r", priv := false }

/-- A commit with a 7-character hash and a zone-aware timestamp. -/
def cAware : GHCommit :=
  { sha := toChars "aaaaaaa", message := toChars "m", date := { t := 0, hasTZ := true },
    htmlUrl := toChars "https://github.com/o/r/commit/x" }

/-- A remote feed where listing the commits of `o/r` returns 31 commits. -/
def envManyCommits : Env where
  login := toChars "u"
  searchCommits := fun _ _ => .ok [cAware]
  getRepo := fun _ => .ok bigRepo
  getCommits := fun _ _ _ => .ok (List.replicate 31 cAware)
  userRepos := []
  gql := fun _ _ _ => .failed

/-- The same feed with the commit search raising a rate-limit error. -/
def envRateLimited : Env :=
  { envManyCommits with searchCommits := fun _ _ => .error "rate limit" }

/-- The same feed with the GraphQL history returning no commit nodes. -/
def envGqlEmpty : Env :=
  { envManyCommits with gql := fun _ _ _ => .ok [] }

/-- A commit with a 7-character hash and a naive timestamp. -/
def cNaive : GHCommit :=
  { sha := toChars "abcdefg", message := toChars "m", date := dtNaive,
    htmlUrl := toChars "h" }

/-- A feed where listing the commits of `o/r` returns one naive-dated commit. -/
def envNaiveEnum : Env :=
  { envManyCommits with getCommits := fun _ _ _ => .ok [cNaive] }

/-- The enumeration record the tracker builds from `cNaive` (timestamp
coerced to UTC). -/
def rEnum : CommitRecord :=
  { repo := toChars "r", sha := toChars "abcdefg", message := toChars "m",
    date := { t := 5, hasTZ := true }, url := toChars "h" }

/-- The repository record the bulk strategy builds for `o/r`. -/
def rp0 : RepoRecord :=
  { name := toChars "r", url := toChars "https://github.com/o/r", priv := false }

/-- An AI summary containing neither the high-level heading nor a section
mark. -/
def aiPlain : Chars := toChars "just a short narrative summary"

/-! ### Generic fold invariants -/

theorem foldl_preserve {α β : Type} {P : α → Prop} {f : α → β → α}
    (H : ∀ a b, P a → P (f a b)) : ∀ (l : List β) (a : α), P a → P (l.foldl f a) := by
  intro l
  induction l with
  | nil => intro a h; exact h
  | cons b t ih => intro a h; exact ih _ (H a b h)

theorem foldl_preserve_mem {α β : Type} {P : α → Prop} {Q : β → Prop} {f : α → β → α}
    (H : ∀ a b, P a → Q b → P (f a b)) :
    ∀ (l : List β) (a : α), (∀ b ∈ l, Q b) → P a → P (l.foldl f a) := by
  intro l
  induction l with
  | nil => intro a _ h; exact h
  | cons b t ih =>
    intro a hq h
    exact ih _ (fun x hx => hq x (List.mem_cons_of_mem _ hx))
      (H a b h (hq b (List.mem_cons_self _ _)))

/-! ### Properties of the chunking loop -/

theorem chunkSeconds_pos : (0 : Int) < chunkSeconds := by norm_num [chunkSeconds, daySeconds]

theorem chunk_mid_lt {s e : Int} (h : s < e) : s < min (s + chunkSeconds) e :=
  lt_min (by have := chunkSeconds_pos; omega) h

theorem chunk_mid_le (s e : Int) : min (s + chunkSeconds) e ≤ e := min_le_right _ _

theorem chunksGo_stop (e : Int) (f : Nat) (s : Int) (h : ¬ s < e) : chunksGo e f s = [] := by
  cases f with
  | zero => rfl
  | succ f => simp [chunksGo, h]

theorem chunksGo_congr (e : Int) :
    ∀ (f g : Nat) (s : Int), (e - s).toNat < f → (e - s).toNat < g →
      chunksGo e f s = chunksGo e g s := by
  intro f
  induction f with
  | zero => intro g s h _; omega
  | succ f ih =>
    intro g s hf hg
    cases g with
    | zero => omega
    | succ g =>
      by_cases h : s < e
      · have h1 := chunk_mid_lt h
        have h2 := chunk_mid_le s e
        simp only [chunksGo, h, if_true]
        exact congrArg _ (ih g _ (by omega) (by omega))
      · rw [chunksGo_stop e _ _ h, chunksGo_stop e _ _ h]

theorem dateChunks_pos {s e : Int} (h : s < e) :
    dateChunks s e =
      (s, min (s + chunkSeconds) e) :: dateChunks (min (s + chunkSeconds) e) e := by
  have h1 := chunk_mid_lt h
  have h2 := chunk_mid_le s e
  show chunksGo e ((e - s).toNat + 1) s = _
  simp only [chunksGo, h, if_true]
  exact congrArg _ (chunksGo_congr e _ _ _ (by omega) (by omega))

theorem dateChunks_stop {s e : Int} (h : ¬ s < e) : dateChunks s e = [] :=
  chunksGo_stop _ _ _ h

theorem dateChunks_mem_bounds (s e : Int) :
    ∀ p ∈ dateChunks s e, s ≤ p.1 ∧ p.1 < p.2 ∧ p.2 ≤ e ∧ p.2 - p.1 ≤ chunkSeconds := by
  by_cases h : s < e
  · rw [dateChunks_pos h]
    intro p hp
    rcases List.mem_cons.mp hp with hp | hp
    · subst hp
      refine ⟨le_refl _, chunk_mid_lt h, chunk_mid_le s e, ?_⟩
      have := min_le_left (s + chunkSeconds) e
      simp only
      omega
    · have ih := dateChunks_mem_bounds (min (s + chunkSeconds) e) e p hp
      have h1 := chunk_mid_lt h
      exact ⟨by omega, ih.2.1, ih.2.2.1, ih.2.2.2⟩
  · rw [dateChunks_stop h]; intro p hp; cases hp
termination_by (e - s).toNat
decreasing_by
  have h1 := chunk_mid_lt h
  have h2 := chunk_mid_le s e
  omega

theorem dateChunks_chain (s e : Int) :
    List.Chain' (fun p q : Int × Int => p.2 = q.1) (dateChunks s e) := by
  by_cases h : s < e
  · rw [dateChunks_pos h]
    refine List.chain'_cons'.mpr ⟨?_, dateChunks_chain (min (s + chunkSeconds) e) e⟩
    intro q hq
    by_cases h' : min (s + chunkSeconds) e < e
    · rw [dateChunks_pos h'] at hq
      simp only [List.head?_cons, Option.mem_def, Option.some.injEq] at hq
      rw [← hq]
    · rw [dateChunks_stop h'] at hq
      simp at hq
  · rw [dateChunks_stop h]; exact List.chain'_nil
termination_by (e - s).toNat
decreasing_by
  have h1 := chunk_mid_lt h
  have h2 := chunk_mid_le s e
  omega

theorem dateChunks_cover (s e : Int) :
    ∀ t : Int, s ≤ t → t < e → ∃ p ∈ dateChunks s e, p.1 ≤ t ∧ t < p.2 := by
  intro t hst hte
  have h : s < e := lt_of_le_of_lt hst hte
  rw [dateChunks_pos h]
  by_cases hm : t < min (s + chunkSeconds) e
  · exact ⟨(s, min (s + chunkSeconds) e), List.mem_cons_self _ _, hst, hm⟩
  · push_neg at hm
    obtain ⟨p, hp, h1, h2⟩ := dateChunks_cover (min (s + chunkSeconds) e) e t hm hte
    exact ⟨p, List.mem_cons_of_mem _ hp, h1, h2⟩
termination_by (e - s).toNat
decreasing_by
  have h1 := chunk_mid_lt h
  have h2 := chunk_mid_le s e
  omega

theorem dateChunks_disjoint (s e : Int) :
    ∀ p ∈ dateChunks s e, ∀ q ∈ dateChunks s e, ∀ t : Int,
      p.1 ≤ t → t < p.2 → q.1 ≤ t → t < q.2 → p = q := by
  by_cases h : s < e
  · rw [dateChunks_pos h]
    intro p hp q hq t hp1 hp2 hq1 hq2
    rcases List.mem_cons.mp hp with hp | hp <;> rcases List.mem_cons.mp hq with hq | hq
    · rw [hp, hq]
    · exfalso
      subst hp
      have hb := (dateChunks_mem_bounds _ e q hq).1
      have hp2' : t < min (s + chunkSeconds) e := hp2
      omega
    · exfalso
      subst hq
      have hb := (dateChunks_mem_bounds _ e p hp).1
      have hq2' : t < min (s + chunkSeconds) e := hq2
      omega
    · exact dateChunks_disjoint _ e p hp q hq t hp1 hp2 hq1 hq2
  · rw [dateChunks_stop h]; intro p hp; cases hp
termination_by (e - s).toNat
decreasing_by
  have h1 := chunk_mid_lt h
  have h2 := chunk_mid_le s e
  omega

theorem dateChunks_last (s e : Int) (h : s < e) :
    ∃ l x, dateChunks s e = l ++ [(x, e)] := by
  rw [dateChunks_pos h]
  by_cases h' : min (s + chunkSeconds) e < e
  · obtain ⟨l, x, hl⟩ := dateChunks_last _ e h'
    exact ⟨(s, min (s + chunkSeconds) e) :: l, x, by rw [hl, List.cons_append]⟩
  · have hme : min (s + chunkSeconds) e = e := by
      have := chunk_mid_le s e; omega
    rw [dateChunks_stop h', hme]
    exact ⟨[], s, rfl⟩
termination_by (e - s).toNat
decreasing_by
  have h1 := chunk_mid_lt h
  have h2 := chunk_mid_le s e
  omega

/-- C6: for every `DateRange` with `start < end`, the conservative strategy's
7-day chunking yields a finite sequence of consecutive half-open sub-ranges
each at most 7 days wide, lying within the range, covering every instant of
the range exactly once (no gaps, no overlaps), with the final chunk truncated
at the original end; in particular a 10-day range yields exactly two chunks,
the second 3 days wide. -/
theorem dateChunks_correct (s e : Int) (h : s < e) :
    (∀ p ∈ dateChunks s e, s ≤ p.1 ∧ p.1 < p.2 ∧ p.2 ≤ e ∧ p.2 - p.1 ≤ chunkSeconds) ∧
    List.Chain' (fun p q : Int × Int => p.2 = q.1) (dateChunks s e) ∧
    (∀ t : Int, (s ≤ t ∧ t < e) ↔ ∃ p ∈ dateChunks s e, p.1 ≤ t ∧ t < p.2) ∧
    (∀ p ∈ dateChunks s e, ∀ q ∈ dateChunks s e, ∀ t : Int,
      p.1 ≤ t → t < p.2 → q.1 ≤ t → t < q.2 → p = q) ∧
    (∃ l x, dateChunks s e = l ++ [(x, e)]) ∧
    dateChunks 0 (10 * daySeconds) =
      [(0, 7 * daySeconds), (7 * daySeconds, 10 * daySeconds)] ∧
    (10 : Int) * daySeconds - 7 * daySeconds = 3 * daySeconds := by
  refine ⟨dateChunks_mem_bounds s e, dateChunks_chain s e, ?_,
    dateChunks_disjoint s e, dateChunks_last s e h, by decide, by decide⟩
  intro t
  constructor
  · intro ⟨h1, h2⟩; exact dateChunks_cover s e t h1 h2
  · intro ⟨p, hp, h1, h2⟩
    have hb := dateChunks_mem_bounds s e p hp
    exact ⟨by omega, by omega⟩

/-- Witness for C6 at a concrete 10-day range. -/
theorem dateChunks_correct_witness :
    (0 : Int) < 10 * daySeconds ∧
      dateChunks 0 (10 * daySeconds) =
        [(0, 7 * daySeconds), (7 * daySeconds, 10 * daySeconds)] :=
  ⟨by decide, (dateChunks_correct 0 (10 * daySeconds) (by decide)).2.2.2.2.2.1⟩

/-! ### Conservative repository accumulation (C7) -/

theorem consRepoStep_names_nodup (env : Env) (a b : Int) (acc : Contributions) (n : Chars)
    (h : (acc.repositories.map (fun r => r.name)).Nodup) :
    ((consRepoStep env a b acc n).repositories.map (fun r => r.name)).Nodup := by
  unfold consRepoStep
  cases env.getRepo n with
  | error _ => exact h
  | ok repo =>
    cases env.getCommits n a b with
    | error _ => exact h
    | ok cs =>
      dsimp only
      split
      · exact h
      · next hx =>
        have hnot : repo.name ∉ acc.repositories.map (fun r => r.name) := by
          intro hmem
          obtain ⟨r, hr, hrn⟩ := List.mem_map.mp hmem
          rw [Bool.not_eq_true, List.any_eq_false] at hx
          have hx' := hx r hr
          simp only [decide_eq_true_eq] at hx'
          exact hx' hrn
        simp [List.nodup_append, h, hnot]

/-- C7: the conservative strategy accumulates repository records
idempotently: a repository whose name is already present is never appended
again, so the names of the returned repository records are pairwise
distinct. -/
theorem conservative_repo_names_distinct (env : Env) (s e : Int) (ip : Bool) :
    ((fetch_contributions_conservative env s e ip).repositories.map (fun r => r.name)).Nodup := by
  refine foldl_preserve (P := fun acc : Contributions =>
      (acc.repositories.map (fun r => r.name)).Nodup) ?_ (dateChunks s e)
      emptyContributions (by simp [emptyContributions])
  intro acc ch hacc
  exact foldl_preserve (P := fun acc : Contributions =>
      (acc.repositories.map (fun r => r.name)).Nodup)
    (fun a n ha => consRepoStep_names_nodup env ch.1 ch.2 a n ha) _ acc hacc

/-! ### Bulk-search fallback (C4) -/

theorem bulk_eq_of_search_error (env : Env) (s e : Int) (ip : Bool) (err : String)
    (h : env.searchCommits s e = .error err) :
    fetch_contributions_bulk_search env s e ip = fetch_contributions_conservative env s e ip := by
  unfold fetch_contributions_bulk_search
  rw [h]

/-- C4: if the bulk strategy's commit search raises (rate-limit or any other
exception: the code routes both to the same fallback), the result is exactly
the conservative strategy run on the same full original range and
include-private flag, so any partial bulk work is discarded and only one
fallback hop occurs. -/
theorem bulk_failure_equals_conservative (env : Env) (s e : Int) (ip : Bool) (err : String)
    (h : env.searchCommits s e = .error err) :
    fetch_contributions_bulk_search env s e ip = fetch_contributions_conservative env s e ip :=
  bulk_eq_of_search_error env s e ip err h

/-- Witness for C4 at a concrete rate-limited environment. -/
theorem bulk_failure_equals_conservative_witness :
    envRateLimited.searchCommits 0 daySeconds = .error "rate limit" ∧
      fetch_contributions_bulk_search envRateLimited 0 daySeconds true =
        fetch_contributions_conservative envRateLimited 0 daySeconds true :=
  ⟨rfl, bulk_failure_equals_conservative envRateLimited 0 daySeconds true "rate limit" rfl⟩

/-! ### GraphQL fallback (C5, C9) -/

theorem graphql_eq_of_no_commits (env : Env) (names : List Chars) (s e : Int)
    (h : (gqlPartial env names s e).commits = []) :
    fetch_contributions_graphql env names s e =
      fetch_contributions_conservative env s e
        ((gqlPartial env names s e).repositories.any (fun r => r.priv)) := by
  simp [fetch_contributions_graphql, h]

theorem graphql_eq_of_commits (env : Env) (names : List Chars) (s e : Int)
    (h : ¬ (gqlPartial env names s e).commits = []) :
    fetch_contributions_graphql env names s e = gqlPartial env names s e := by
  simp [fetch_contributions_graphql, h]

theorem gqlStep_repos_public (env : Env) (s e : Int) (acc : Contributions) (name : Chars)
    (h : ∀ rp ∈ acc.repositories, rp.priv = false) :
    ∀ rp ∈ (gqlStep env s e acc name).repositories, rp.priv = false := by
  unfold gqlStep
  cases splitSlashOnce name with
  | none => exact h
  | some p =>
    obtain ⟨o, r⟩ := p
    cases env.gql name s e with
    | failed => exact h
    | ok nodes =>
      intro rp hrp
      dsimp only at hrp
      rcases List.mem_append.mp hrp with hm | hm
      · exact h rp hm
      · simp only [List.mem_singleton] at hm
        rw [hm]

theorem gqlPartial_repos_public (env : Env) (names : List Chars) (s e : Int) :
    ∀ rp ∈ (gqlPartial env names s e).repositories, rp.priv = false := by
  refine foldl_preserve (P := fun acc : Contributions =>
      ∀ rp ∈ acc.repositories, rp.priv = false)
    (fun a n ha => gqlStep_repos_public env s e a n ha) names emptyContributions ?_
  simp [emptyContributions]

theorem gqlPartial_any_priv_false (env : Env) (names : List Chars) (s e : Int) :
    (gqlPartial env names s e).repositories.any (fun r => r.priv) = false := by
  rw [List.any_eq_false]
  intro rp hrp
  simp [gqlPartial_repos_public env names s e rp hrp]

/-- C5: if the GraphQL strategy collects zero commits across all
repositories it returns exactly the conservative strategy's result over the
full original range (not its own empty set); if at least one commit was
collected, it returns its own accumulation and no fallback occurs. -/
theorem graphql_zero_commit_fallback (env : Env) (names : List Chars) (s e : Int) :
    ((gqlPartial env names s e).commits = [] →
      fetch_contributions_graphql env names s e =
        fetch_contributions_conservative env s e
          ((gqlPartial env names s e).repositories.any (fun r => r.priv))) ∧
    ((gqlPartial env names s e).commits ≠ [] →
      fetch_contributions_graphql env names s e = gqlPartial env names s e) :=
  ⟨graphql_eq_of_no_commits env names s e, graphql_eq_of_commits env names s e⟩

/-- Witness for C5 at a concrete environment whose GraphQL history is empty. -/
theorem graphql_zero_commit_fallback_witness :
    (gqlPartial envGqlEmpty [toChars "o/r"] 0 daySeconds).commits = [] ∧
      fetch_contributions_graphql envGqlEmpty [toChars "o/r"] 0 daySeconds =
        fetch_contributions_conservative envGqlEmpty 0 daySeconds
          ((gqlPartial envGqlEmpty [toChars "o/r"] 0 daySeconds).repositories.any
            (fun r => r.priv)) :=
  ⟨by decide,
    (graphql_zero_commit_fallback envGqlEmpty [toChars "o/r"] 0 daySeconds).1 (by decide)⟩

/-- C9: every repository record the GraphQL strategy accumulates is marked
public, so when it falls back to the conservative strategy the re-derived
include-private flag is always `false`, whatever the caller originally
supplied (the GraphQL entry point does not even receive that flag). -/
theorem graphql_fallback_forces_public (env : Env) (names : List Chars) (s e : Int) :
    (∀ rp ∈ (gqlPartial env names s e).repositories, rp.priv = false) ∧
    ((gqlPartial env names s e).commits = [] →
      fetch_contributions_graphql env names s e =
        fetch_contributions_conservative env s e false) := by
  refine ⟨gqlPartial_repos_public env names s e, fun h => ?_⟩
  rw [graphql_eq_of_no_commits env names s e h, gqlPartial_any_priv_false]

/-- Witness for C9: the fallback call is made with `includePrivate = false`. -/
theorem graphql_fallback_forces_public_witness :
    (gqlPartial envGqlEmpty [toChars "o/r"] 0 daySeconds).commits = [] ∧
      fetch_contributions_graphql envGqlEmpty [toChars "o/r"] 0 daySeconds =
        fetch_contributions_conservative envGqlEmpty 0 daySeconds false :=
  ⟨by decide,
    (graphql_fallback_forces_public envGqlEmpty [toChars "o/r"] 0 daySeconds).2 (by decide)⟩

/-! ### Visibility flags of bulk / GraphQL repository records (C10) -/

theorem visibility_of_public (rp : RepoRecord) (h : rp.priv = false) :
    visibilityMd rp = toChars "🌐 Public" ∧ visibilityPlain rp = toChars "Public" := by
  constructor <;> simp [visibilityMd, visibilityPlain, h]

theorem bulk_ok_repos_public (env : Env) (s e : Int) (ip : Bool) (cs : List GHCommit)
    (h : env.searchCommits s e = .ok cs) :
    ∀ rp ∈ (fetch_contributions_bulk_search env s e ip).repositories, rp.priv = false := by
  unfold fetch_contributions_bulk_search
  rw [h]
  intro rp hrp
  dsimp only at hrp
  obtain ⟨kp, _, hkp⟩ := List.mem_map.mp hrp
  rw [← hkp]

/-- C10: every repository record produced by the bulk strategy (when its
search succeeds) or accumulated by the GraphQL strategy carries
`private = false` regardless of actual remote visibility, and therefore
renders with the public glyph / "Public" literal, never the private ones. -/
theorem bulk_graphql_repos_marked_public (env : Env) (s e : Int) (ip : Bool) :
    (∀ cs, env.searchCommits s e = .ok cs →
      ∀ rp ∈ (fetch_contributions_bulk_search env s e ip).repositories,
        rp.priv = false ∧ visibilityMd rp = toChars "🌐 Public" ∧
          visibilityPlain rp = toChars "Public") ∧
    (∀ names, ∀ rp ∈ (gqlPartial env names s e).repositories,
      rp.priv = false ∧ visibilityMd rp = toChars "🌐 Public" ∧
        visibilityPlain rp = toChars "Public") ∧
    (∀ names, (gqlPartial env names s e).commits ≠ [] →
      ∀ rp ∈ (fetch_contributions_graphql env names s e).repositories,
        rp.priv = false ∧ visibilityMd rp = toChars "🌐 Public" ∧
          visibilityPlain rp = toChars "Public") := by
  refine ⟨?_, ?_, ?_⟩
  · intro cs h rp hrp
    have hp := bulk_ok_repos_public env s e ip cs h rp hrp
    exact ⟨hp, (visibility_of_public rp hp).1, (visibility_of_public rp hp).2⟩
  · intro names rp hrp
    have hp := gqlPartial_repos_public env names s e rp hrp
    exact ⟨hp, (visibility_of_public rp hp).1, (visibility_of_public rp hp).2⟩
  · intro names h rp hrp
    rw [graphql_eq_of_commits env names s e h] at hrp
    have hp := gqlPartial_repos_public env names s e rp hrp
    exact ⟨hp, (visibility_of_public rp hp).1, (visibility_of_public rp hp).2⟩

/-- Witness for C10 at a concrete bulk run. -/
theorem bulk_graphql_repos_marked_public_witness :
    rp0 ∈ (fetch_contributions_bulk_search envDupSha 0 daySeconds true).repositories ∧
      (rp0.priv = false ∧ visibilityMd rp0 = toChars "🌐 Public" ∧
        visibilityPlain rp0 = toChars "Public") :=
  ⟨by decide,
    (bulk_graphql_repos_marked_public envDupSha 0 daySeconds true).1 dupFeed rfl
      rp0 (by decide)⟩

/-! ### The conservative per-repository commit cap does not exist (C2) -/

/-- Counterexample for C2 as stated: with a remote feed returning 31 commits
for one repository inside a single chunk, the conservative strategy appends
all 31 of them (the code passes `per_page=30` but iterates the whole
paginated result). -/
theorem conservative_no_cap_counterexample :
    30 < ((fetch_contributions_conservative envManyCommits 0 3600 true).commits.filter
      (fun r => r.repo = toChars "r")).length := by decide

/-- C2 amended: for a repository processed in a chunk, the conservative
strategy appends every commit the remote returns for that repository and
sub-range — there is no per-repository cap (the 30 only sets the page size). -/
theorem consRepoStep_appends_all (env : Env) (a b : Int) (acc : Contributions) (n : Chars)
    (repo : Repo) (cs : List GHCommit) (h1 : env.getRepo n = .ok repo)
    (h2 : env.getCommits n a b = .ok cs) :
    (consRepoStep env a b acc n).commits.length = acc.commits.length + cs.length := by
  unfold consRepoStep
  rw [h1, h2]
  dsimp only
  split <;> simp

/-- Witness for the amended C2: 31 remote commits, 31 appended records. -/
theorem consRepoStep_appends_all_witness :
    envManyCommits.getRepo (toChars "o/r") = .ok bigRepo ∧
      envManyCommits.getCommits (toChars "o/r") 0 3600 = .ok (List.replicate 31 cAware) ∧
      (consRepoStep envManyCommits 0 3600 emptyContributions (toChars "o/r")).commits.length =
        emptyContributions.commits.length + (List.replicate 31 cAware).length :=
  ⟨rfl, rfl,
    consRepoStep_appends_all envManyCommits 0 3600 emptyContributions (toChars "o/r")
      bigRepo (List.replicate 31 cAware) rfl rfl⟩

/-! ### Short hashes and the absent deduplication (C1) -/

/-- Counterexample for C1 as stated: on a feed with two distinct commits
sharing their first 7 hash characters in one repository plus one short
(3-character) hash, the bulk strategy emits duplicate (repository, short
hash) pairs and a 3-character short hash — no deduplication is performed. -/
theorem commit_key_not_unique_counterexample :
    (¬ ((fetch_contributions_bulk_search envDupSha 0 daySeconds true).commits.map
        (fun r => (r.repo, r.sha))).Nodup) ∧
      ((fetch_contributions_bulk_search envDupSha 0 daySeconds true).commits.map
        (fun r => r.sha.length)) = [7, 7, 3] := by
  constructor <;> decide

/-! ### Timestamps are not universally coerced (C3) -/

/-- Counterexample for C3 as stated: the bulk strategy stores naive remote
timestamps unchanged (zone-awareness flag stays `false` on every record of
the naive-dated feed). -/
theorem naive_date_not_coerced_counterexample :
    ((fetch_contributions_bulk_search envDupSha 0 daySeconds true).commits.map
      (fun r => r.date.hasTZ)) = [false, false, false] := by decide

/-! ### Where each strategy's commit records come from -/

theorem mem_addToGroup_content {κ α : Type} [DecidableEq κ] (g : List (κ × List α)) (k : κ) (a : α) :
    ∀ kl ∈ addToGroup g k a, ∀ x ∈ kl.2, (∃ kl' ∈ g, x ∈ kl'.2) ∨ x = a := by
  induction g with
  | nil =>
    intro kl hkl x hx
    simp only [addToGroup, List.mem_singleton] at hkl
    subst hkl
    simp only [List.mem_singleton] at hx
    exact Or.inr hx
  | cons p t ih =>
    intro kl hkl x hx
    obtain ⟨k', l⟩ := p
    simp only [addToGroup] at hkl
    by_cases hk : k' = k
    · rw [if_pos hk] at hkl
      rcases List.mem_cons.mp hkl with h1 | h1
      · subst h1
        rcases List.mem_append.mp hx with h2 | h2
        · exact Or.inl ⟨(k', l), List.mem_cons_self _ _, h2⟩
        · simp only [List.mem_singleton] at h2
          exact Or.inr h2
      · exact Or.inl ⟨kl, List.mem_cons_of_mem _ h1, hx⟩
    · rw [if_neg hk] at hkl
      rcases List.mem_cons.mp hkl with h1 | h1
      · subst h1
        exact Or.inl ⟨(k', l), List.mem_cons_self _ _, hx⟩
      · rcases ih kl h1 x hx with h2 | h2
        · obtain ⟨kl', hkl', hx'⟩ := h2
          exact Or.inl ⟨kl', List.mem_cons_of_mem _ hkl', hx'⟩
        · exact Or.inr h2

theorem bulkGroups_content (cs : List GHCommit) :
    ∀ kl ∈ bulkGroups cs, ∀ x ∈ kl.2, x ∈ cs := by
  unfold bulkGroups
  refine foldl_preserve_mem (P := fun g : List ((Chars × Chars) × List GHCommit) =>
      ∀ kl ∈ g, ∀ x ∈ kl.2, x ∈ cs) (Q := fun c => c ∈ cs) ?_ cs []
      (fun b hb => hb) (by simp)
  intro g c hg hc kl hkl x hx
  revert hkl
  cases hrp : repoPairOfUrl c.htmlUrl with
  | none => intro hkl; exact hg kl hkl x hx
  | some kp =>
    intro hkl
    rcases mem_addToGroup_content g kp c kl hkl x hx with h1 | h1
    · obtain ⟨kl', hkl', hx'⟩ := h1
      exact hg kl' hkl' x hx'
    · rw [h1]; exact hc

theorem bulk_ok_commits_src (env : Env) (s e : Int) (ip : Bool) (cs : List GHCommit)
    (h : env.searchCommits s e = .ok cs) :
    ∀ r ∈ (fetch_contributions_bulk_search env s e ip).commits,
      ∃ kp gc, gc ∈ cs ∧ r = bulkRecord kp gc := by
  unfold fetch_contributions_bulk_search
  rw [h]
  intro r hr
  dsimp only at hr
  obtain ⟨kl, hkl, hr2⟩ := List.mem_flatMap.mp hr
  obtain ⟨gc, hgc, hr3⟩ := List.mem_map.mp hr2
  exact ⟨kl.1, gc, bulkGroups_content cs kl hkl gc (List.take_subset _ _ hgc), hr3.symm⟩

theorem conservative_commits_src (env : Env) (s e : Int) (ip : Bool) :
    ∀ r ∈ (fetch_contributions_conservative env s e ip).commits,
      ∃ n a b repo cs gc, env.getRepo n = .ok repo ∧ env.getCommits n a b = .ok cs ∧
        gc ∈ cs ∧ r = consRecord repo gc := by
  refine foldl_preserve (P := fun acc : Contributions =>
      ∀ r ∈ acc.commits, ∃ n a b repo cs gc, env.getRepo n = .ok repo ∧
        env.getCommits n a b = .ok cs ∧ gc ∈ cs ∧ r = consRecord repo gc) ?_
      (dateChunks s e) emptyContributions (by simp [emptyContributions])
  intro acc ch hacc
  refine foldl_preserve (P := fun acc : Contributions =>
      ∀ r ∈ acc.commits, ∃ n a b repo cs gc, env.getRepo n = .ok repo ∧
        env.getCommits n a b = .ok cs ∧ gc ∈ cs ∧ r = consRecord repo gc) ?_ _ acc hacc
  intro a n ha r hr
  unfold consRepoStep at hr
  revert hr
  cases hgr : env.getRepo n with
  | error _ => intro hr; exact ha r hr
  | ok repo =>
    cases hgc : env.getCommits n ch.1 ch.2 with
    | error _ => intro hr; exact ha r hr
    | ok cs =>
      intro hr
      dsimp only at hr
      have hr' : r ∈ a.commits ++ cs.map (consRecord repo) := by
        revert hr
        split
        · exact fun hr => hr
        · exact fun hr => hr
      rcases List.mem_append.mp hr' with h1 | h1
      · exact ha r h1
      · obtain ⟨gc, hgcm, hrec⟩ := List.mem_map.mp h1
        exact ⟨n, ch.1, ch.2, repo, cs, gc, hgr, hgc, hgcm, hrec.symm⟩

theorem enumeration_commits_src (env : Env) (names : List Chars) (s e : Int) :
    ∀ r ∈ (fetch_contributions_enumeration env names s e).commits,
      ∃ n repo cs gc, env.getRepo n = .ok repo ∧ env.getCommits n s e = .ok cs ∧
        gc ∈ cs ∧ r = enumRecord repo gc := by
  refine foldl_preserve (P := fun acc : Contributions =>
      ∀ r ∈ acc.commits, ∃ n repo cs gc, env.getRepo n = .ok repo ∧
        env.getCommits n s e = .ok cs ∧ gc ∈ cs ∧ r = enumRecord repo gc) ?_
      names emptyContributions (by simp [emptyContributions])
  intro a n ha r hr
  unfold enumStep at hr
  revert hr
  cases hgr : env.getRepo n with
  | error _ => intro hr; exact ha r hr
  | ok repo =>
    cases hgc : env.getCommits n s e with
    | error _ => intro hr; exact ha r hr
    | ok cs =>
      intro hr
      dsimp only at hr
      rcases List.mem_append.mp hr with h1 | h1
      · exact ha r h1
      · obtain ⟨gc, hgcm, hrec⟩ := List.mem_map.mp h1
        exact ⟨n, repo, cs, gc, hgr, hgc, List.take_subset _ _ hgcm, hrec.symm⟩

theorem gqlPartial_commits_src (env : Env) (names : List Chars) (s e : Int) :
    ∀ r ∈ (gqlPartial env names s e).commits,
      ∃ n sn nodes gc, env.gql n s e = .ok nodes ∧ gc ∈ nodes ∧ r = gqlRecord sn gc := by
  refine foldl_preserve (P := fun acc : Contributions =>
      ∀ r ∈ acc.commits, ∃ n sn nodes gc, env.gql n s e = .ok nodes ∧ gc ∈ nodes ∧
        r = gqlRecord sn gc) ?_ names emptyContributions (by simp [emptyContributions])
  intro a n ha r hr
  unfold gqlStep at hr
  revert hr
  cases hsp : splitSlashOnce n with
  | none => intro hr; exact ha r hr
  | some p =>
    obtain ⟨o, sn⟩ := p
    cases hq : env.gql n s e with
    | failed => intro hr; exact ha r hr
    | ok nodes =>
      intro hr
      dsimp only at hr
      rcases List.mem_append.mp hr with h1 | h1
      · exact ha r h1
      · obtain ⟨gc, hgcm, hrec⟩ := List.mem_map.mp h1
        exact ⟨n, sn, nodes, gc, hq, (List.mem_filter.mp hgcm).1, hrec.symm⟩

/-! ### Short hashes are 7 characters when the remote hashes are (C1) -/

theorem take7_length {l : Chars} (h : 7 ≤ l.length) : (l.take 7).length = 7 := by
  simp only [List.length_take]
  omega

theorem conservative_sha7 (env : Env) (h : EnvShaOK env) (s e : Int) (ip : Bool) :
    ∀ r ∈ (fetch_contributions_conservative env s e ip).commits, r.sha.length = 7 := by
  intro r hr
  obtain ⟨n, a, b, repo, cs, gc, _, hgc, hmem, hrec⟩ := conservative_commits_src env s e ip r hr
  rw [hrec]
  exact take7_length (h.2.1 n a b cs hgc gc hmem)

theorem bulk_sha7 (env : Env) (h : EnvShaOK env) (s e : Int) (ip : Bool) :
    ∀ r ∈ (fetch_contributions_bulk_search env s e ip).commits, r.sha.length = 7 := by
  cases hs : env.searchCommits s e with
  | error err =>
    rw [bulk_eq_of_search_error env s e ip err hs]
    exact conservative_sha7 env h s e ip
  | ok cs =>
    intro r hr
    obtain ⟨kp, gc, hmem, hrec⟩ := bulk_ok_commits_src env s e ip cs hs r hr
    rw [hrec]
    exact take7_length (h.1 s e cs hs gc hmem)

theorem graphql_sha7 (env : Env) (h : EnvShaOK env) (names : List Chars) (s e : Int) :
    ∀ r ∈ (fetch_contributions_graphql env names s e).commits, r.sha.length = 7 := by
  by_cases hc : (gqlPartial env names s e).commits = []
  · rw [graphql_eq_of_no_commits env names s e hc]
    exact conservative_sha7 env h s e _
  · rw [graphql_eq_of_commits env names s e hc]
    intro r hr
    obtain ⟨n, sn, nodes, gc, hq, hmem, hrec⟩ := gqlPartial_commits_src env names s e r hr
    rw [hrec]
    exact take7_length (h.2.2 n s e nodes hq gc hmem)

theorem enumeration_sha7 (env : Env) (h : EnvShaOK env) (names : List Chars) (s e : Int) :
    ∀ r ∈ (fetch_contributions_enumeration env names s e).commits, r.sha.length = 7 := by
  intro r hr
  obtain ⟨n, repo, cs, gc, _, hgc, hmem, hrec⟩ := enumeration_commits_src env names s e r hr
  rw [hrec]
  exact take7_length (h.2.1 n s e cs hgc gc hmem)

/-- C1 amended: whenever every hash the remote hands back has at least 7
characters, every commit record produced by `get_contributions` under any
strategy selection carries a short hash of exactly 7 characters (the short
hash is `sha[:7]`); no (repository, short hash) deduplication is performed,
so uniqueness of the pairs is not guaranteed (see the counterexample). -/
theorem all_short_hashes_length7 (env : Env) (h : EnvShaOK env) (s e : Int)
    (ip optimize : Bool) (limit : Option Nat) (useGraphql useBulk useConservative : Bool) :
    ∀ r ∈ (get_contributions env s e ip optimize limit useGraphql useBulk
        useConservative).commits, r.sha.length = 7 := by
  unfold get_contributions
  dsimp only
  cases useConservative with
  | true => exact conservative_sha7 env h s e ip
  | false =>
    cases useBulk with
    | true => exact bulk_sha7 env h s e ip
    | false =>
      cases useGraphql with
      | true => exact graphql_sha7 env h _ s e
      | false => exact enumeration_sha7 env h _ s e

theorem envManyCommits_shaOK : EnvShaOK envManyCommits := by
  refine ⟨?_, ?_, ?_⟩
  · intro a b cs hcs c hc
    have h1 : [cAware] = cs :=
      Except.ok.inj (show Except.ok [cAware] = Except.ok cs from hcs)
    rw [← h1] at hc
    rw [List.mem_singleton.mp hc]
    decide
  · intro n a b cs hcs c hc
    have h1 : List.replicate 31 cAware = cs :=
      Except.ok.inj (show Except.ok (List.replicate 31 cAware) = Except.ok cs from hcs)
    rw [← h1] at hc
    rw [List.eq_of_mem_replicate hc]
    decide
  · intro n a b ns hns c hc
    exact absurd (show GqlResp.failed = GqlResp.ok ns from hns) (by intro h; cases h)

/-- Witness for the amended C1 under the conservative strategy selection. -/
theorem all_short_hashes_length7_witness :
    EnvShaOK envManyCommits ∧
      ∀ r ∈ (get_contributions envManyCommits 0 3600 true true none false false
          true).commits, r.sha.length = 7 :=
  ⟨envManyCommits_shaOK,
    all_short_hashes_length7 envManyCommits envManyCommits_shaOK 0 3600 true true none
      false false true⟩

/-! ### Timestamp handling per strategy (C3) -/

theorem tzNormalize_aware (d : DT) : (tzNormalize d).hasTZ = true := by
  unfold tzNormalize
  split
  · next hd => exact hd
  · rfl

/-- C3 amended: only the exhaustive-enumeration path coerces timestamps (its
records are always zone-aware, naive remote values being stamped UTC); the
conservative, bulk and GraphQL strategies store the remote timestamp
unchanged, so a naive remote value stays naive (see the counterexample). -/
theorem timestamp_handling_per_strategy (env : Env) :
    (∀ names s e, ∀ r ∈ (fetch_contributions_enumeration env names s e).commits,
      r.date.hasTZ = true) ∧
    (∀ s e ip, ∀ r ∈ (fetch_contributions_conservative env s e ip).commits,
      ∃ n a b cs gc, env.getCommits n a b = .ok cs ∧ gc ∈ cs ∧ r.date = gc.date) ∧
    (∀ s e ip cs, env.searchCommits s e = .ok cs →
      ∀ r ∈ (fetch_contributions_bulk_search env s e ip).commits,
        ∃ gc ∈ cs, r.date = gc.date) ∧
    (∀ names s e, ∀ r ∈ (gqlPartial env names s e).commits,
      ∃ n nodes gc, env.gql n s e = .ok nodes ∧ gc ∈ nodes ∧ r.date = gc.date) := by
  refine ⟨?_, ?_, ?_, ?_⟩
  · intro names s e r hr
    obtain ⟨n, repo, cs, gc, _, _, _, hrec⟩ := enumeration_commits_src env names s e r hr
    rw [hrec]
    exact tzNormalize_aware gc.date
  · intro s e ip r hr
    obtain ⟨n, a, b, repo, cs, gc, _, hgc, hmem, hrec⟩ :=
      conservative_commits_src env s e ip r hr
    refine ⟨n, a, b, cs, gc, hgc, hmem, ?_⟩
    rw [hrec]
    rfl
  · intro s e ip cs hs r hr
    obtain ⟨kp, gc, hmem, hrec⟩ := bulk_ok_commits_src env s e ip cs hs r hr
    refine ⟨gc, hmem, ?_⟩
    rw [hrec]
    rfl
  · intro names s e r hr
    obtain ⟨n, sn, nodes, gc, hq, hmem, hrec⟩ := gqlPartial_commits_src env names s e r hr
    refine ⟨n, nodes, gc, hq, hmem, ?_⟩
    rw [hrec]
    rfl

/-- Witness for the amended C3: a naive remote timestamp surfaces zone-aware
from the enumeration path. -/
theorem timestamp_handling_witness :
    rEnum ∈ (fetch_contributions_enumeration envNaiveEnum [toChars "o/r"] 0
        daySeconds).commits ∧ rEnum.date.hasTZ = true :=
  ⟨by decide,
    (timestamp_handling_per_strategy envNaiveEnum).1 [toChars "o/r"] 0 daySeconds rEnum
      (by decide)⟩

/-! ### String lemmas for the low-level tasks injection (C8) -/

theorem prefOf_iff (p : Chars) : ∀ s, prefOf p s = true ↔ ∃ t, s = p ++ t := by
  induction p with
  | nil =>
    intro s
    simp [prefOf]
  | cons a as ih =>
    intro s
    cases s with
    | nil =>
      simp only [prefOf, Bool.false_eq_true, false_iff, not_exists]
      intro t ht
      cases ht
    | cons b bs =>
      simp only [prefOf, Bool.and_eq_true, decide_eq_true_eq, ih bs, List.cons_append]
      constructor
      · rintro ⟨rfl, t, rfl⟩
        exact ⟨t, rfl⟩
      · rintro ⟨t, ht⟩
        injection ht with h1 h2
        exact ⟨h1.symm, t, h2⟩

theorem prefOf_ext (p a b : Chars) (h : prefOf p a = true) : prefOf p (a ++ b) = true := by
  obtain ⟨t, rfl⟩ := (prefOf_iff p a).mp h
  exact (prefOf_iff p _).mpr ⟨t ++ b, by simp⟩

theorem occursIn_iff (p : Chars) : ∀ s, occursIn p s = true ↔ ∃ a b, s = a ++ p ++ b := by
  intro s
  induction s with
  | nil =>
    show prefOf p [] = true ↔ _
    rw [prefOf_iff]
    constructor
    · rintro ⟨t, ht⟩
      exact ⟨[], t, by simpa using ht⟩
    · rintro ⟨a, b, hab⟩
      have h1 : a = [] ∧ p ++ b = [] := by
        have := hab.symm
        rw [List.append_assoc] at this
        exact List.append_eq_nil.mp this
      have h2 := List.append_eq_nil.mp h1.2
      exact ⟨[], by rw [h2.1]; rfl⟩
  | cons c t ih =>
    show (prefOf p (c :: t) || occursIn p t) = true ↔ _
    rw [Bool.or_eq_true, prefOf_iff, ih]
    constructor
    · rintro (⟨u, hu⟩ | ⟨a, b, hab⟩)
      · exact ⟨[], u, by simpa using hu⟩
      · exact ⟨c :: a, b, by simp [hab]⟩
    · rintro ⟨a, b, hab⟩
      cases a with
      | nil =>
        exact Or.inl ⟨b, by simpa using hab⟩
      | cons a0 as =>
        injection hab with h1 h2
        exact Or.inr ⟨as, b, h2⟩

theorem occursIn_nil_of_ne (p : Chars) (hp : p ≠ []) : occursIn p [] = false := by
  cases p with
  | nil => exact absurd rfl hp
  | cons a as => rfl

theorem replaceAllGo_fuel (p r : Chars) (hp : p ≠ []) :
    ∀ (f g : Nat) (s : Chars), s.length ≤ f → s.length ≤ g →
      replaceAllGo p r f s = replaceAllGo p r g s := by
  intro f
  induction f with
  | zero =>
    intro g s hf _
    have hs : s = [] := List.eq_nil_of_length_eq_zero (Nat.le_zero.mp hf)
    subst hs
    cases g <;> rfl
  | succ f ih =>
    intro g s hf hg
    cases s with
    | nil => cases g <;> rfl
    | cons c t =>
      cases g with
      | zero => simp at hg
      | succ g =>
        have hplen : 0 < p.length := List.length_pos.mpr hp
        simp only [List.length_cons] at hf hg
        simp only [replaceAllGo]
        by_cases hpre : prefOf p (c :: t) = true
        · rw [if_pos hpre, if_pos hpre]
          refine congrArg _ (ih g _ ?_ ?_) <;>
            simp only [List.length_drop, List.length_cons] <;> omega
        · rw [if_neg hpre, if_neg hpre]
          exact congrArg _ (ih g t (by omega) (by omega))

theorem replaceAll_cons (p r : Chars) (hp : p ≠ []) (c : Char) (t : Chars) :
    replaceAll p r (c :: t) =
      if prefOf p (c :: t) = true then r ++ replaceAll p r ((c :: t).drop p.length)
      else c :: replaceAll p r t := by
  have hplen : 0 < p.length := List.length_pos.mpr hp
  show replaceAllGo p r (c :: t).length (c :: t) = _
  simp only [List.length_cons, replaceAllGo]
  by_cases hpre : prefOf p (c :: t) = true
  · rw [if_pos hpre, if_pos hpre]
    refine congrArg _ (replaceAllGo_fuel p r hp _ _ _ ?_ ?_) <;>
      simp only [List.length_drop, List.length_cons] <;> omega
  · rw [if_neg hpre, if_neg hpre]
    rfl

theorem replaceAll_first (p r : Chars) (hp : p ≠ []) :
    ∀ s, occursIn p s = true →
      ∃ a b, s = a ++ p ++ b ∧ occursIn p a = false ∧
        replaceAll p r s = a ++ r ++ replaceAll p r b := by
  intro s
  induction s with
  | nil =>
    intro h
    rw [occursIn_nil_of_ne p hp] at h
    cases h
  | cons c t ih =>
    intro h
    by_cases hpre : prefOf p (c :: t) = true
    · obtain ⟨u, hu⟩ := (prefOf_iff p (c :: t)).mp hpre
      refine ⟨[], u, by simpa using hu, occursIn_nil_of_ne p hp, ?_⟩
      rw [replaceAll_cons p r hp c t, if_pos hpre, hu, List.drop_left]
      simp
    · have ht : occursIn p t = true := by
        have h' : (prefOf p (c :: t) || occursIn p t) = true := h
        rcases Bool.or_eq_true_iff.mp h' with h2 | h2
        · exact absurd h2 hpre
        · exact h2
      obtain ⟨a, b, hab, hna, hrw⟩ := ih ht
      refine ⟨c :: a, b, by simp [hab], ?_, ?_⟩
      · show (prefOf p (c :: a) || occursIn p a) = false
        rw [hna]
        have hpca : prefOf p (c :: a) = false := by
          by_contra hc
          rw [Bool.not_eq_false] at hc
          have : prefOf p ((c :: a) ++ (p ++ b)) = true := prefOf_ext p _ _ hc
          have heq : (c :: a) ++ (p ++ b) = c :: t := by
            simp [hab]
          rw [heq] at this
          exact absurd this hpre
        rw [hpca]
        rfl
      · rw [replaceAll_cons p r hp c t, if_neg hpre, hrw]
        simp

theorem occursIn_firstIdx (p : Chars) : ∀ s, occursIn p s = true → ∃ i, firstIdx p s = some i := by
  intro s
  induction s with
  | nil =>
    intro h
    have h' : prefOf p [] = true := h
    exact ⟨0, by simp [firstIdx, h']⟩
  | cons c t ih =>
    intro h
    by_cases hpre : prefOf p (c :: t) = true
    · exact ⟨0, by simp [firstIdx, hpre]⟩
    · have ht : occursIn p t = true := by
        have h' : (prefOf p (c :: t) || occursIn p t) = true := h
        rcases Bool.or_eq_true_iff.mp h' with h2 | h2
        · exact absurd h2 hpre
        · exact h2
      obtain ⟨i, hi⟩ := ih ht
      exact ⟨i + 1, by simp [firstIdx, hpre, hi]⟩

theorem firstIdx_pref (p : Chars) : ∀ s i, firstIdx p s = some i → prefOf p (s.drop i) = true := by
  intro s
  induction s with
  | nil =>
    intro i hi
    simp only [firstIdx] at hi
    split at hi
    · next h =>
      injection hi with hi
      subst hi
      simpa using h
    · cases hi
  | cons c t ih =>
    intro i hi
    simp only [firstIdx] at hi
    split at hi
    · next h =>
      injection hi with hi
      subst hi
      simpa using h
    · next h =>
      cases hft : firstIdx p t with
      | none => rw [hft] at hi; cases hi
      | some j =>
        rw [hft] at hi
        simp only [Option.map_some', Option.some.injEq] at hi
        subst hi
        simpa using ih j hft

theorem idxFrom_ge (p s : Chars) (k j : Nat) (h : idxFrom p s k = some j) : k ≤ j := by
  unfold idxFrom at h
  cases hf : firstIdx p (s.drop k) with
  | none => rw [hf] at h; cases h
  | some i =>
    rw [hf] at h
    simp only [Option.map_some', Option.some.injEq] at h
    omega

theorem joinNl_mem_decomp : ∀ (ls : List Chars) (x : Chars), x ∈ ls →
    ∃ a b, joinNl ls = a ++ x ++ b := by
  intro ls
  induction ls with
  | nil => intro x hx; cases hx
  | cons y t ih =>
    intro x hx
    cases t with
    | nil =>
      simp only [List.mem_singleton] at hx
      subst hx
      exact ⟨[], [], by simp [joinNl]⟩
    | cons z zs =>
      rcases List.mem_cons.mp hx with h1 | h1
      · subst h1
        exact ⟨[], '\n' :: joinNl (z :: zs), by simp [joinNl]⟩
      · obtain ⟨a, b, hab⟩ := ih x h1
        exact ⟨y ++ '\n' :: a, b, by simp [joinNl, hab]⟩

/-! ### Grouping lemmas for the low-level tasks body (C8) -/

theorem findGroup_addToGroup_self {κ α : Type} [DecidableEq κ] :
    ∀ (g : List (κ × List α)) (k : κ) (a : α),
      findGroup (addToGroup g k a) k = findGroup g k ++ [a] := by
  intro g k a
  induction g with
  | nil => simp [addToGroup, findGroup]
  | cons p t ih =>
    obtain ⟨k', l⟩ := p
    by_cases hk : k' = k
    · simp [addToGroup, findGroup, hk]
    · simp [addToGroup, findGroup, hk, ih]

theorem findGroup_addToGroup_other {κ α : Type} [DecidableEq κ] :
    ∀ (g : List (κ × List α)) (k k' : κ) (a : α), k ≠ k' →
      findGroup (addToGroup g k' a) k = findGroup g k := by
  intro g k k' a hne
  have hne' : ¬ k' = k := fun h => hne h.symm
  induction g with
  | nil => simp [addToGroup, findGroup, hne']
  | cons p t ih =>
    obtain ⟨k0, l⟩ := p
    by_cases hk : k0 = k'
    · subst hk
      simp [addToGroup, findGroup, hne']
    · by_cases hk0 : k0 = k
      · simp [addToGroup, findGroup, hk, hk0, hne]
      · simp [addToGroup, findGroup, hk, hk0, ih]

theorem mem_findGroup_foldl :
    ∀ (cs : List CommitRecord) (g : List (Chars × List CommitRecord)) (c : CommitRecord),
      (c ∈ findGroup g c.repo ∨ c ∈ cs) →
      c ∈ findGroup (cs.foldl (fun g c => addToGroup g c.repo c) g) c.repo := by
  intro cs
  induction cs with
  | nil =>
    intro g c h
    rcases h with h | h
    · exact h
    · cases h
  | cons d t ih =>
    intro g c h
    simp only [List.foldl_cons]
    apply ih
    by_cases hd : c = d
    · subst hd
      left
      rw [findGroup_addToGroup_self]
      exact List.mem_append_right _ (List.mem_singleton.mpr rfl)
    · rcases h with h | h
      · left
        by_cases hrepo : c.repo = d.repo
        · rw [hrepo] at h ⊢
          rw [findGroup_addToGroup_self]
          exact List.mem_append_left _ h
        · rw [findGroup_addToGroup_other g c.repo d.repo d hrepo]
          exact h
      · rcases List.mem_cons.mp h with h1 | h1
        · exact absurd h1 hd
        · right
          exact h1

theorem mem_group_of_mem (cs : List CommitRecord) (c : CommitRecord) (h : c ∈ cs) :
    c ∈ findGroup (groupCommits cs) c.repo :=
  mem_findGroup_foldl cs [] c (Or.inr h)

theorem findGroup_ne_nil_key {κ α : Type} [DecidableEq κ] :
    ∀ (g : List (κ × List α)) (k : κ), findGroup g k ≠ [] → k ∈ g.map (fun kl => kl.1) := by
  intro g k
  induction g with
  | nil => intro h; exact absurd rfl h
  | cons p t ih =>
    obtain ⟨k', l⟩ := p
    intro h
    by_cases hk : k' = k
    · simp [hk]
    · rw [show findGroup ((k', l) :: t) k = findGroup t k from by simp [findGroup, hk]] at h
      simp only [List.map_cons, List.mem_cons]
      exact Or.inr (ih h)

theorem repo_mem_sortedKeys (cs : List CommitRecord) (cm : CommitRecord) (hm : cm ∈ cs) :
    cm.repo ∈ sortedRepoKeys cs := by
  have hgrp := mem_group_of_mem cs cm hm
  have hkey : cm.repo ∈ (groupCommits cs).map (fun kl => kl.1) :=
    findGroup_ne_nil_key _ _ (fun hnil => by rw [hnil] at hgrp; cases hgrp)
  unfold sortedRepoKeys
  exact (List.perm_insertionSort _ _).mem_iff.mpr hkey

theorem commitLine_occurs (c : Contributions) (cm : CommitRecord) (hm : cm ∈ c.commits)
    (hne : ¬ c.commits = []) :
    occursIn (commitTaskLine cm) (generate_low_level_tasks c) = true := by
  unfold generate_low_level_tasks
  rw [if_neg hne]
  have hline : commitTaskLine cm ∈ lowLevelLines c.commits := by
    unfold lowLevelLines
    apply List.mem_flatMap.mpr
    refine ⟨cm.repo, repo_mem_sortedKeys c.commits cm hm, ?_⟩
    exact List.mem_cons_of_mem _
      (List.mem_append_left _ (List.mem_map_of_mem _ (mem_group_of_mem c.commits cm hm)))
  obtain ⟨a, b, hab⟩ :=
    joinNl_mem_decomp (toChars "## Low-Level Tasks\n" :: lowLevelLines c.commits) _
      (List.mem_cons_of_mem _ hline)
  rw [hab]
  exact (occursIn_iff _ _).mpr ⟨a, b, rfl⟩

/-- C8: the low-level tasks injection.  (a) With no commits the section is
exactly the fixed heading plus the "no commits" sentence.  (b) When the
high-level heading occurs in the AI summary, the section is inserted
immediately before its first occurrence (the code replaces every
occurrence; the remainder is the replacement of the tail).  (c)/(d) When
the heading is absent, the section is inserted just before the first
section mark strictly after the overview heading, or appended at the end
when there is no overview heading or no following section mark.  (e) The
section body lists the repositories in sorted (lexicographic) order —
exactly the grouped repository names — and contains one
`    Commit: {sha} - {message}` line for every commit. -/
theorem low_level_injection (s : Chars) (c : Contributions) :
    (c.commits = [] →
      generate_low_level_tasks c =
        toChars "## Low-Level Tasks\n\nNo commits found in the specified time period.") ∧
    (occursIn hlHeading s = true →
      ∃ a b, s = a ++ hlHeading ++ b ∧ occursIn hlHeading a = false ∧
        injectLowLevel s c =
          a ++ (generate_low_level_tasks c ++ nn2 ++ hlHeading) ++
            replaceAll hlHeading (generate_low_level_tasks c ++ nn2 ++ hlHeading) b) ∧
    (occursIn hlHeading s = false → occursIn ovHeading s = true →
      ∃ i, firstIdx ovHeading s = some i ∧ prefOf ovHeading (s.drop i) = true ∧
        (match idxFrom sectionMark s (i + 1) with
         | none => injectLowLevel s c = s ++ nn2 ++ generate_low_level_tasks c
         | some j => i < j ∧ injectLowLevel s c =
             s.take j ++ nn2 ++ generate_low_level_tasks c ++ nn2 ++ s.drop j)) ∧
    (occursIn hlHeading s = false → occursIn ovHeading s = false →
      injectLowLevel s c = s ++ nn2 ++ generate_low_level_tasks c) ∧
    (¬ c.commits = [] →
      List.Sorted (fun a b : Chars => a ≤ b) (sortedRepoKeys c.commits) ∧
      (sortedRepoKeys c.commits).Perm ((groupCommits c.commits).map (fun kl => kl.1)) ∧
      ∀ cm ∈ c.commits, cm.repo ∈ sortedRepoKeys c.commits ∧
        occursIn (commitTaskLine cm) (generate_low_level_tasks c) = true) := by
  refine ⟨?_, ?_, ?_, ?_, ?_⟩
  · intro h
    unfold generate_low_level_tasks
    rw [if_pos h]
  · intro h
    obtain ⟨a, b, hab, hna, hrw⟩ :=
      replaceAll_first hlHeading (generate_low_level_tasks c ++ nn2 ++ hlHeading)
        (by decide) s h
    refine ⟨a, b, hab, hna, ?_⟩
    simp only [injectLowLevel]
    rw [if_pos h]
    exact hrw
  · intro h1 h2
    obtain ⟨i, hi⟩ := occursIn_firstIdx ovHeading s h2
    refine ⟨i, hi, firstIdx_pref ovHeading s i hi, ?_⟩
    cases hj : idxFrom sectionMark s (i + 1) with
    | none =>
      show injectLowLevel s c = s ++ nn2 ++ generate_low_level_tasks c
      simp only [injectLowLevel]
      rw [if_neg (by simp [h1]), if_pos h2, hi]
      show (match idxFrom sectionMark s (i + 1) with
            | none => s ++ nn2 ++ generate_low_level_tasks c
            | some j => s.take j ++ nn2 ++ generate_low_level_tasks c ++ nn2 ++ s.drop j) =
          s ++ nn2 ++ generate_low_level_tasks c
      rw [hj]
    | some j =>
      refine ⟨Nat.lt_of_succ_le (idxFrom_ge sectionMark s (i + 1) j hj), ?_⟩
      show injectLowLevel s c =
        s.take j ++ nn2 ++ generate_low_level_tasks c ++ nn2 ++ s.drop j
      simp only [injectLowLevel]
      rw [if_neg (by simp [h1]), if_pos h2, hi]
      show (match idxFrom sectionMark s (i + 1) with
            | none => s ++ nn2 ++ generate_low_level_tasks c
            | some j => s.take j ++ nn2 ++ generate_low_level_tasks c ++ nn2 ++ s.drop j) =
          s.take j ++ nn2 ++ generate_low_level_tasks c ++ nn2 ++ s.drop j
      rw [hj]
  · intro h1 h2
    simp only [injectLowLevel]
    rw [if_neg (by simp [h1]), if_neg (by simp [h2])]
  · intro hne
    refine ⟨List.sorted_insertionSort _ _, List.perm_insertionSort _ _, ?_⟩
    intro cm hm
    exact ⟨repo_mem_sortedKeys c.commits cm hm, commitLine_occurs c cm hm hne⟩

/-- Witness for C8: a summary with neither heading gets the section appended
at the end, and with no commits the section is the fixed sentence. -/
theorem low_level_injection_witness :
    injectLowLevel aiPlain emptyContributions =
        aiPlain ++ nn2 ++ generate_low_level_tasks emptyContributions ∧
      generate_low_level_tasks emptyContributions =
        toChars "## Low-Level Tasks\n\nNo commits found in the specified time period." :=
  ⟨(low_level_injection aiPlain emptyContributions).2.2.2.1 (by decide) (by decide),
    (low_level_injection aiPlain emptyContributions).1 rfl⟩

end Tracker
